import Mathlib

/- A shallow embedding of the Schwartz-Hearst abbreviation extractor
   (abbreviations/schwartz_hearst.py).

   Python strings are modelled as List Char.  Python indexing and slicing,
   including negative indices and clamping, are modelled explicitly.
   Python str.isalnum, str.lower and the regex letter class are modelled by
   their ASCII restrictions (exact for all inputs considered here).
   Fallible Python code returns Except PyErr; the orchestrator catches
   exactly the exception kinds the source catches.  The unbounded while
   loops of the source are modelled with an explicit fuel parameter that
   provably dominates the loop's iteration count (see the isSome lemmas
   below), so the fuel-exhausted branches are unreachable. -/

/-- Python exception kinds that the program raises and catches. -/
inductive PyErr where
  | valueError (msg : String)
  | indexError
deriving DecidableEq, Repr

/-- Model of the Python whitespace class used by str.strip and str.split. -/
def isPySpace (c : Char) : Bool := c.isWhitespace

/-- Model of Python str.lower on one character, restricted to ASCII. -/
def pyToLower (c : Char) : Char := c.toLower

/-- Model of Python str.isalnum on one character, restricted to ASCII. -/
def pyIsAlnum (c : Char) : Bool := c.isAlphanum

/-- Python s.lower() over a whole string. -/
def toLowerL (s : List Char) : List Char := s.map pyToLower

/-- Number of leading whitespace characters: len(s) - len(s.lstrip()). -/
def lstripCount (s : List Char) : Nat := (s.takeWhile isPySpace).length

/-- Number of trailing whitespace characters: len(s) - len(s.rstrip()). -/
def rstripCount (s : List Char) : Nat := (s.reverse.takeWhile isPySpace).length

/-- Python s.strip(). -/
def pyStrip (s : List Char) : List Char :=
  ((s.dropWhile isPySpace).reverse.dropWhile isPySpace).reverse

/-- Normalise a Python slice bound against a sequence of length n:
    negative bounds wrap by adding n (clamped at 0), bounds past the end clamp. -/
def pyNormIdx (n : Nat) (i : Int) : Nat :=
  if i < 0 then ((n : Int) + i).toNat else min n i.toNat

/-- Python slice s[a:b] with full Python semantics for integer bounds. -/
def pySliceCore {α : Type} (s : List α) (a b : Int) : List α :=
  (s.take (pyNormIdx s.length b)).drop (pyNormIdx s.length a)

/-- Python indexing s[i]: negative indices wrap once; out of range is an
    IndexError, modelled as none. -/
def pyIdx (s : List Char) (i : Int) : Option Char :=
  if 0 ≤ i then s.get? i.toNat
  else if -(s.length : Int) ≤ i then s.get? ((s.length : Int) + i).toNat
  else none

/-- Accumulator-style worker for Python str.split(). -/
def pySplitAux : List Char → List Char → List (List Char)
  | [], acc => if acc.isEmpty then [] else [acc.reverse]
  | c :: s, acc =>
    if isPySpace c then
      if acc.isEmpty then pySplitAux s [] else acc.reverse :: pySplitAux s []
    else pySplitAux s (c :: acc)

/-- Python s.split(): split on whitespace runs, yielding no empty tokens. -/
def pySplit (s : List Char) : List (List Char) := pySplitAux s []

/-- Python s.find(c, p) for a one-character needle: first index at or after p. -/
def pyFindFrom (s : List Char) (c : Char) (p : Nat) : Option Nat :=
  ((s.drop p).findIdx? (· == c)).map (· + p)

/-- Python s.find(c) as an integer, -1 when the character is absent. -/
def pyFindInt (s : List Char) (c : Char) : Int :=
  match pyFindFrom s c 0 with
  | some i => (i : Int)
  | none => -1

/-- Python l.index(x, i): a negative start wraps by adding len(l) and then
    clamps to 0; none models the ValueError of a failed search. -/
def pyIndexFrom (l : List Char) (x : Char) (i : Int) : Option Nat :=
  let i0 : Nat := if i < 0 then ((l.length : Int) + i).toNat else i.toNat
  ((l.drop i0).findIdx? (· == x)).map (· + i0)

/-- Length of the Python string ' '.join(ts). -/
def joinSpaceLen (ts : List (List Char)) : Nat :=
  (ts.map List.length).sum + ts.length - 1

/-- Python doc.split on the newline character, keeping empty lines. -/
def splitNl : List Char → List (List Char)
  | [] => [[]]
  | c :: rest =>
    match splitNl rest with
    | [] => [[c]]
    | h :: t => if c = '\n' then [] :: h :: t else (c :: h) :: t

/-- The Candidate value of the source: a string carrying the start and stop
    offsets of the half-open range it was cut from. -/
structure Candidate where
  start : Int
  stop : Int
  value : List Char
deriving DecidableEq, Repr

/-- Greedy matcher counting repetitions of the regex group
    (letter, optional dot, optional space) from the start of the string.
    The fuel dominates the list length, so the fuel branch is unreachable. -/
def repGroupsF : Nat → List Char → Nat
  | 0, _ => 0
  | _, [] => 0
  | fuel + 1, c :: rest =>
    if ¬ c.isAlpha then 0
    else
      let r1 := match rest with
        | '.' :: r => r
        | _ => rest
      let r2 := match r1 with
        | x :: r => if isPySpace x then r else r1
        | [] => r1
      1 + repGroupsF fuel r2

/-- Model of regex.match of the pattern requiring two or more such groups,
    anchored at the start of the string. -/
def regexMatchRep2 (s : List Char) : Bool := 2 ≤ repGroupsF s.length s

/-- The candidate acceptance conditions of the source. -/
def conditions (candidate : List Char) : Bool :=
  if regexMatchRep2 (candidate.dropWhile isPySpace) then true
  else if candidate.length < 2 ∨ candidate.length > 10 then false
  else if (pySplit candidate).length > 2 then false
  else if ¬ candidate.any Char.isAlpha then false
  else if ¬ pyIsAlnum (candidate.headD ' ') then false
  else true

/-- The inner scan of best_candidates: walk from index i with open-paren
    counter opn; return the index just past the matching close parenthesis,
    or none when the line ends first (the opening bracket is then skipped). -/
def matchCloseF : List Char → Nat → Nat → Option Nat
  | [], _, _ => none
  | c :: rest, i, opn =>
    let opn' := if c = '(' then opn + 1 else if c = ')' then opn - 1 else opn
    if opn' = 0 then some (i + 1) else matchCloseF rest (i + 1) opn'

/-- Build the candidate for one matched parenthesis pair: slice the interior,
    trim whitespace while adjusting the offsets, and apply conditions. -/
def bcYield (s : List Char) (oi ci : Nat) : List Candidate :=
  let start : Nat := oi + 1
  let stop : Nat := ci - 1
  let cand := pySliceCore s (start : Int) (stop : Int)
  let start2 := start + lstripCount cand
  let stop2 := stop - rstripCount cand
  let cand2 := pySliceCore s (start2 : Int) (stop2 : Int)
  if conditions cand2 then [⟨(start2 : Int), (stop2 : Int), cand2⟩] else []

/-- The candidate-scanning loop of best_candidates, searching from position p.
    Every iteration advances the search position by at least two, so fuel
    s.length + 2 suffices (bcLoopF_isSome below). -/
def bcLoopF : Nat → List Char → Nat → Option (List Candidate)
  | 0, _, _ => none
  | fuel + 1, s, p =>
    match pyFindFrom s '(' p with
    | none => some []
    | some oi =>
      match matchCloseF (s.drop (oi + 1)) (oi + 1) 1 with
      | none => bcLoopF fuel s (oi + 2)
      | some ci => (bcLoopF fuel s (ci + 1)).map (fun rest => bcYield s oi ci ++ rest)

/-- All candidates scanned from one line, with the fuel instantiated. -/
def candidatesOfRaw (s : List Char) : List Candidate :=
  (bcLoopF (s.length + 2) s 0).getD []

/-- best_candidates: the line-level parenthesis checks followed by the scan.
    The two ValueError raises abort the whole line. -/
def best_candidates (s : List Char) : Except PyErr (List Candidate) :=
  if '(' ∈ s then
    if s.count '(' ≠ s.count ')' then
      .error (.valueError "Unbalanced parentheses")
    else if pyFindInt s '(' > pyFindInt s ')' then
      .error (.valueError "First parentheses is right")
    else .ok (candidatesOfRaw s)
  else .ok []

/-- The candidates a line contributes; empty when the line-level check fails. -/
def candidatesOf (s : List Char) : List Candidate :=
  match best_candidates s with
  | .ok l => l
  | .error _ => []

/-- key = candidate[0].lower() of get_definition. -/
def gdKey (candidate : Candidate) : Char := pyToLower (candidate.value.headD ' ')

/-- tokens = sentence[:candidate.start - 2].lower().split() of get_definition.
    Note that start - 2 is a Python slice bound and may be negative. -/
def gdTokens (candidate : Candidate) (sentence : List Char) : List (List Char) :=
  pySplit (toLowerL (pySliceCore sentence 0 (candidate.start - 2)))

/-- firstchars = the first character of each token. -/
def gdFirstchars (candidate : Candidate) (sentence : List Char) : List Char :=
  (gdTokens candidate sentence).map (fun t => t.headD ' ')

/-- definition_freq = firstchars.count(key). -/
def definitionFreq (candidate : Candidate) (sentence : List Char) : Nat :=
  (gdFirstchars candidate sentence).count (gdKey candidate)

/-- candidate_freq = candidate.lower().count(key). -/
def candidateFreq (candidate : Candidate) : Nat :=
  (toLowerL candidate.value).count (gdKey candidate)

/-- The startindex search loop of get_definition.  The state is
    k = -start (the loop counter), si = startindex and cnt = count.
    Each iteration increments k and the guard bounds k by len(firstchars),
    so fuel len(firstchars) + 2 suffices (gdLoopF_isSome below). -/
def gdLoopF : Nat → List Char → Char → Nat → Nat → Int → Nat → Option (Except PyErr Int)
  | 0, _, _, _, _, _, _ => none
  | fuel + 1, fc, key, cfreq, k, si, cnt =>
    if cnt < cfreq then
      if (k : Int) > (fc.length : Int) then
        some (.error (.valueError "candiate not found"))
      else
        let si' : Int :=
          match pyIndexFrom fc key ((fc.length : Int) - ((k : Int) + 1)) with
          | some j => (j : Int)
          | none => si
        let cnt' := (pySliceCore fc si' (fc.length : Int)).count key
        gdLoopF fuel fc key cfreq (k + 1) si' cnt'
    else some (.ok si)

/-- The loop above with its fuel instantiated; the default is unreachable
    because the fuel dominates the iteration count (gdLoopF_isSome). -/
def gdStartIndex (candidate : Candidate) (sentence : List Char) : Except PyErr Int :=
  (gdLoopF ((gdFirstchars candidate sentence).length + 2)
    (gdFirstchars candidate sentence) (gdKey candidate) (candidateFreq candidate)
    0 (((gdFirstchars candidate sentence).length : Int) - 1) 0).getD
    (.error (.valueError "fuel exhausted"))

/-- get_definition of the source.  An empty candidate raises IndexError at
    candidate[0]; too few key-initial tokens raises ValueError; otherwise the
    definition window is sliced from the sentence and whitespace-trimmed with
    the offsets adjusted. -/
def get_definition (candidate : Candidate) (sentence : List Char) : Except PyErr Candidate :=
  match candidate.value with
  | [] => .error .indexError
  | _ :: _ =>
    if candidateFreq candidate ≤ definitionFreq candidate sentence then
      match gdStartIndex candidate sentence with
      | .error e => .error e
      | .ok si =>
        let start : Int := (joinSpaceLen (pySliceCore (gdTokens candidate sentence) 0 si) : Nat)
        let stop : Int := candidate.start - 1
        let cand1 := pySliceCore sentence start stop
        let start2 := start + (lstripCount cand1 : Int)
        let stop2 := stop - (rstripCount cand1 : Int)
        let cand2 := pySliceCore sentence start2 stop2
        .ok ⟨start2, stop2, cand2⟩
    else
      .error (.valueError "There are less keys in the tokens in front of candidate than there are in the candidate")

/-- The backward alignment loop of select_definition, with fuel.  Besides the
    loop outcome (the final lindex on the word-boundary break, or the raised
    error) it returns the list of character pairs (shortchar, longchar)
    compared by the loop, one pair per iteration, in iteration order.
    Note the source reads shortchar before the non-alphanumeric skip
    decrements sindex, so the comparison of that iteration still uses the
    character read at the original sindex.  Every iteration decrements
    lindex, and reading definition[lindex] fails once lindex passes the
    front, so fuel len(definition) + 2 suffices (alignLoopF_isSome below). -/
def alignLoopF : Nat → List Char → List Char → Int → Int →
    Option (Except PyErr Int × List (Char × Char))
  | 0, _, _, _, _ => none
  | fuel + 1, d, a, sindex, lindex =>
    match pyIdx d lindex with
    | none => some (.error .indexError, [])
    | some lc =>
      match pyIdx a sindex with
      | none => some (.error .indexError, [])
      | some sc =>
        let longchar := pyToLower lc
        let shortchar := pyToLower sc
        let sindex1 := if ¬ pyIsAlnum shortchar then sindex - 1 else sindex
        let push := fun (r : Option (Except PyErr Int × List (Char × Char))) =>
          r.map (fun q => (q.1, (shortchar, longchar) :: q.2))
        if sindex1 = -(a.length : Int) then
          if shortchar = longchar then
            if lindex = -(d.length : Int) ∨
                ¬ ((pyIdx d (lindex - 1)).map pyIsAlnum).getD false then
              some (.ok lindex, [(shortchar, longchar)])
            else push (alignLoopF fuel d a sindex1 (lindex - 1))
          else
            if lindex - 1 = -((d.length : Int) + 1) then
              some (.error (.valueError "definition was not found"), [(shortchar, longchar)])
            else push (alignLoopF fuel d a sindex1 (lindex - 1))
        else
          if shortchar = longchar then push (alignLoopF fuel d a (sindex1 - 1) (lindex - 1))
          else push (alignLoopF fuel d a sindex1 (lindex - 1))

/-- The alignment loop outcome with the fuel instantiated; the default is
    unreachable (alignLoopF_isSome below). -/
def alignRun (d a : List Char) : Except PyErr Int :=
  ((alignLoopF (d.length + 2) d a (-1) (-1)).getD (.error .indexError, [])).1

/-- The comparisons performed by the alignment loop, from the same run. -/
def alignTraceRun (d a : List Char) : List (Char × Char) :=
  ((alignLoopF (d.length + 2) d a (-1) (-1)).getD (.error .indexError, [])).2

/-- select_definition of the source: the two checked preconditions, the
    backward alignment, the narrowing of the value to definition[lindex:]
    (the start and stop offsets are carried over unchanged), and the final
    token-ratio and parenthesis-balance constraints. -/
def select_definition (definition : Candidate) (abbr : Candidate) : Except PyErr Candidate :=
  if definition.value.length < abbr.value.length then
    .error (.valueError "Abbreviation is longer than definition")
  else if abbr.value ∈ pySplit definition.value then
    .error (.valueError "Abbreviation is full word of definition")
  else
    match alignRun definition.value abbr.value with
    | .error e => .error e
    | .ok lindex =>
      let newdef : Candidate :=
        ⟨definition.start, definition.stop,
          pySliceCore definition.value lindex (definition.value.length : Int)⟩
      if (pySplit newdef.value).length >
          min (abbr.value.length + 5) (abbr.value.length * 2) then
        .error (.valueError "did not meet min constraint")
      else if newdef.value.count '(' ≠ newdef.value.count ')' then
        .error (.valueError "Unbalanced parentheses not allowed in a definition")
      else .ok newdef

/-- The abbreviation map: Python dict keys compare by string value. -/
abbrev AbbrevMap := List (List Char × Candidate)

/-- Python dict assignment m[k] = v: replace in place when the key exists,
    append otherwise. -/
def dictInsert (m : AbbrevMap) (k : List Char) (v : Candidate) : AbbrevMap :=
  if m.any (fun p => p.1 == k) then
    m.map (fun p => if p.1 == k then (k, v) else p)
  else m ++ [(k, v)]

/-- One candidate inside the orchestrator loop.  A ValueError from
    get_definition is caught (the candidate is omitted); an IndexError there
    is not caught at this level and propagates.  Both IndexError and
    ValueError from select_definition are caught. -/
def processCandidate (m : AbbrevMap) (sentence : List Char) (c : Candidate) :
    Except PyErr AbbrevMap :=
  match get_definition c sentence with
  | .error (.valueError _) => .ok m
  | .error .indexError => .error .indexError
  | .ok defn =>
    match select_definition defn c with
    | .error _ => .ok m
    | .ok d => .ok (dictInsert m c.value d)

/-- The per-candidate loop over one line's candidates. -/
def processCandsE (sentence : List Char) : AbbrevMap → List Candidate → Except PyErr AbbrevMap
  | m, [] => .ok m
  | m, c :: cs =>
    match processCandidate m sentence c with
    | .ok m' => processCandsE sentence m' cs
    | .error e => .error e

/-- One line of the orchestrator: a ValueError from best_candidates aborts
    only this line (it is caught); any uncaught error kind propagates. -/
def processLine (m : AbbrevMap) (sentence : List Char) : Except PyErr AbbrevMap :=
  match best_candidates sentence with
  | .error (.valueError _) => .ok m
  | .error .indexError => .error .indexError
  | .ok cs => processCandsE sentence m cs

/-- The line loop of the orchestrator. -/
def processLinesE : AbbrevMap → List (List Char) → Except PyErr AbbrevMap
  | m, [] => .ok m
  | m, l :: ls =>
    match processLine m l with
    | .ok m' => processLinesE m' ls
    | .error e => .error e

/-- yield_lines_from_doc: split the document on newlines and strip each line. -/
def yield_lines_from_doc (doc : List Char) : List (List Char) :=
  (splitNl doc).map pyStrip

/-- The orchestrator on an in-memory document, surfacing any uncaught error.
    An empty document string is falsy in Python and returns the empty map. -/
def extractE (doc : List Char) : Except PyErr AbbrevMap :=
  if doc.isEmpty then .ok [] else processLinesE [] (yield_lines_from_doc doc)

/-- extract_abbreviation_definition_pairs with a doc_text argument. -/
def extract_abbreviation_definition_pairs (doc : List Char) : AbbrevMap :=
  match extractE doc with
  | .ok m => m
  | .error _ => []

/-- The pair a candidate stores when both stages succeed, none otherwise. -/
def candPair (sentence : List Char) (c : Candidate) : Option (List Char × Candidate) :=
  match get_definition c sentence with
  | .ok defn =>
    match select_definition defn c with
    | .ok d => some (c.value, d)
    | .error _ => none
  | .error _ => none

/-- The pairs one line contributes, in candidate order. -/
def linePairs (sentence : List Char) : List (List Char × Candidate) :=
  (candidatesOf sentence).filterMap (candPair sentence)

/-- All kept pairs of a document in chronological (line, then candidate) order. -/
def keptPairsL : List (List Char) → List (List Char × Candidate)
  | [] => []
  | l :: ls => linePairs l ++ keptPairsL ls

/-- The value of the chronologically last pair carrying a given key. -/
def lastDef : List (List Char × Candidate) → List Char → Option Candidate
  | [], _ => none
  | p :: ps, a =>
    match lastDef ps a with
    | some v => some v
    | none => if p.1 == a then some p.2 else none

/-- Convenience conversion from a string literal. -/
def ofStr (s : String) : List Char := s.toList

deriving instance DecidableEq for Except

/-! Section: Basic facts about the Python primitives -/

theorem pyIdx_some_le {s : List Char} {i : Int} {c : Char} (h : pyIdx s i = some c) :
    -(s.length : Int) ≤ i := by
  unfold pyIdx at h
  split at h
  · next h0 => omega
  · split at h
    · next _ h1 => exact h1
    · simp at h

theorem pyFindFrom_some {s : List Char} {c : Char} {p i : Nat}
    (h : pyFindFrom s c p = some i) : p ≤ i ∧ i < s.length := by
  unfold pyFindFrom at h
  cases hf : (s.drop p).findIdx? (· == c) with
  | none => rw [hf] at h; simp at h
  | some j =>
    rw [hf] at h
    simp only [Option.map_some', Option.some.injEq] at h
    have hj := (List.findIdx?_eq_some_iff_findIdx_eq.mp hf).1
    rw [List.length_drop] at hj
    omega

theorem matchCloseF_lt : ∀ (l : List Char) (i opn r : Nat),
    matchCloseF l i opn = some r → i < r := by
  intro l
  induction l with
  | nil => intro i opn r h; simp [matchCloseF] at h
  | cons c rest ih =>
    intro i opn r h
    simp only [matchCloseF] at h
    generalize (if c = '(' then opn + 1 else if c = ')' then opn - 1 else opn) = o2 at h
    split at h
    · cases h; omega
    · have := ih (i + 1) o2 r h; omega

/-! Section: The fuel arguments dominate the loop iteration counts -/

theorem bcLoopF_isSome : ∀ (fuel : Nat) (s : List Char) (p : Nat),
    s.length + 2 - p ≤ fuel → 0 < fuel → (bcLoopF fuel s p).isSome := by
  intro fuel
  induction fuel with
  | zero => intro s p _ h0; omega
  | succ n ih =>
    intro s p h _
    unfold bcLoopF
    split
    · simp
    · next oi hf =>
      have hoi := pyFindFrom_some hf
      split
      · next hm => exact ih s (oi + 2) (by omega) (by omega)
      · next ci hm =>
        have hci := matchCloseF_lt _ _ _ _ hm
        simp only [Option.isSome_map']
        exact ih s (ci + 1) (by omega) (by omega)

theorem gdLoopF_isSome : ∀ (fuel : Nat) (fc : List Char) (key : Char) (cfreq k : Nat)
    (si : Int) (cnt : Nat), fc.length + 2 - k ≤ fuel → 0 < fuel →
    (gdLoopF fuel fc key cfreq k si cnt).isSome := by
  intro fuel
  induction fuel with
  | zero => intro _ _ _ _ _ _ _ h0; omega
  | succ n ih =>
    intro fc key cfreq k si cnt h _
    unfold gdLoopF
    split
    · split
      · simp
      · next hk =>
        exact ih fc key cfreq (k + 1) _ _ (by omega) (by omega)
    · simp

theorem alignLoopF_isSome : ∀ (fuel : Nat) (d a : List Char) (si li : Int),
    ((d.length : Int) + 1 + li).toNat < fuel → (alignLoopF fuel d a si li).isSome := by
  intro fuel
  induction fuel with
  | zero => intro _ _ _ _ h; omega
  | succ n ih =>
    intro d a si li h
    unfold alignLoopF
    split
    · simp
    · next lc hd =>
      have hb := pyIdx_some_le hd
      split
      · simp
      · next sc ha =>
        dsimp only
        repeat' split
        all_goals try simp only [Option.isSome_map']
        all_goals first
          | simp
          | exact ih d a _ (li - 1) (by omega)

/-! Section: Tokens of a split are no longer than the string -/

theorem pySplitAux_mem_length : ∀ (s acc t : List Char),
    t ∈ pySplitAux s acc → t.length ≤ s.length + acc.length := by
  intro s
  induction s with
  | nil =>
    intro acc t h
    simp only [pySplitAux] at h
    split at h
    · simp at h
    · simp only [List.mem_singleton] at h
      subst h
      simp
  | cons c s ih =>
    intro acc t h
    simp only [pySplitAux] at h
    split at h
    · split at h
      · have := ih [] t h
        simp only [List.length_nil, List.length_cons] at *
        omega
      · rcases List.mem_cons.mp h with h1 | h1
        · subst h1
          simp only [List.length_reverse, List.length_cons]
          omega
        · have := ih [] t h1
          simp only [List.length_nil, List.length_cons] at *
          omega
    · have := ih (c :: acc) t h
      simp only [List.length_cons] at *
      omega

theorem pySplit_mem_length {s t : List Char} (h : t ∈ pySplit s) : t.length ≤ s.length := by
  have := pySplitAux_mem_length s [] t h
  simpa using this

/-! Section: Candidates produced by the scan satisfy conditions and re-slice -/

theorem conditions_nil : conditions [] = false := by decide

theorem conditions_ne_nil {v : List Char} (h : conditions v = true) : v ≠ [] := by
  intro he
  subst he
  rw [conditions_nil] at h
  exact Bool.false_ne_true h

theorem bcLoopF_mem : ∀ (fuel : Nat) (s : List Char) (p : Nat) (l : List Candidate),
    bcLoopF fuel s p = some l → ∀ c ∈ l,
      conditions c.value = true ∧ c.value = pySliceCore s c.start c.stop := by
  intro fuel
  induction fuel with
  | zero => intro s p l h; simp [bcLoopF] at h
  | succ n ih =>
    intro s p l h c hc
    simp only [bcLoopF] at h
    split at h
    · cases h
      simp at hc
    · next oi hf =>
      split at h
      · exact ih s (oi + 2) l h c hc
      · next ci hm =>
        cases hb : bcLoopF n s (ci + 1) with
        | none => rw [hb] at h; simp at h
        | some rest =>
          rw [hb] at h
          simp only [Option.map_some', Option.some.injEq] at h
          subst h
          rcases List.mem_append.mp hc with h1 | h1
          · simp only [bcYield] at h1
            split at h1
            · next hcond =>
              simp only [List.mem_singleton] at h1
              subst h1
              exact ⟨hcond, rfl⟩
            · simp at h1
          · exact ih s (ci + 1) rest hb c h1

theorem candidatesOf_mem {s : List Char} {c : Candidate} (h : c ∈ candidatesOf s) :
    conditions c.value = true ∧ c.value = pySliceCore s c.start c.stop := by
  unfold candidatesOf at h
  cases hb : best_candidates s with
  | error e => rw [hb] at h; simp at h
  | ok l =>
    rw [hb] at h
    unfold best_candidates at hb
    split at hb
    · split at hb
      · simp at hb
      · split at hb
        · simp at hb
        · simp only [Except.ok.injEq] at hb
          subst hb
          unfold candidatesOfRaw at h
          cases hr : bcLoopF (s.length + 2) s 0 with
          | none => rw [hr] at h; simp at h
          | some l' =>
            rw [hr] at h
            simp only [Option.getD_some] at h
            exact bcLoopF_mem _ s 0 l' hr c h
    · simp only [Except.ok.injEq] at hb
      subst hb
      simp at h

/-! Section: The stage functions raise only the advertised exception kinds -/

theorem gdLoopF_no_index : ∀ (fuel : Nat) (fc : List Char) (key : Char)
    (cfreq k : Nat) (si : Int) (cnt : Nat),
    gdLoopF fuel fc key cfreq k si cnt ≠ some (.error .indexError) := by
  intro fuel
  induction fuel with
  | zero => intro fc key cfreq k si cnt; simp [gdLoopF]
  | succ n ih =>
    intro fc key cfreq k si cnt
    simp only [gdLoopF]
    split
    · split
      · simp
      · exact ih fc key cfreq (k + 1) _ _
    · simp

theorem gdStartIndex_no_index (c : Candidate) (s : List Char) :
    gdStartIndex c s ≠ .error .indexError := by
  unfold gdStartIndex
  cases hb : gdLoopF ((gdFirstchars c s).length + 2) (gdFirstchars c s) (gdKey c)
      (candidateFreq c) 0 (((gdFirstchars c s).length : Int) - 1) 0 with
  | none => simp
  | some r =>
    simp only [Option.getD_some]
    intro he
    subst he
    exact gdLoopF_no_index _ _ _ _ _ _ _ hb

theorem get_definition_ne_indexError {c : Candidate} {s : List Char}
    (hne : c.value ≠ []) : get_definition c s ≠ .error .indexError := by
  unfold get_definition
  cases hcv : c.value with
  | nil => exact absurd hcv hne
  | cons x xs =>
    split
    · next heq => simp at heq
    · split
      · split
        · next e hg =>
          intro hh
          simp only [Except.error.injEq] at hh
          subst hh
          exact gdStartIndex_no_index c s hg
        · next si hg => simp
      · simp

/-! Section: The orchestrator catches every error the stages produce -/

theorem processCandidate_ok (m : AbbrevMap) (s : List Char) (c : Candidate)
    (h : c.value ≠ []) : ∃ m', processCandidate m s c = .ok m' := by
  cases hg : get_definition c s with
  | error e =>
    cases e with
    | valueError msg => exact ⟨m, by simp only [processCandidate, hg]⟩
    | indexError => exact absurd hg (get_definition_ne_indexError h)
  | ok defn =>
    cases hs : select_definition defn c with
    | error e' => exact ⟨m, by simp only [processCandidate, hg, hs]⟩
    | ok d => exact ⟨dictInsert m c.value d, by simp only [processCandidate, hg, hs]⟩

theorem processCandsE_ok : ∀ (cs : List Candidate) (s : List Char) (m : AbbrevMap),
    (∀ c ∈ cs, c.value ≠ []) → ∃ m', processCandsE s m cs = .ok m' := by
  intro cs
  induction cs with
  | nil => intro s m _; exact ⟨m, rfl⟩
  | cons c cs ih =>
    intro s m h
    obtain ⟨m1, hm1⟩ := processCandidate_ok m s c (h c (List.mem_cons_self c cs))
    obtain ⟨m2, hm2⟩ := ih s m1 (fun c' hc' => h c' (List.mem_cons_of_mem c hc'))
    refine ⟨m2, ?_⟩
    simp only [processCandsE]
    rw [hm1]
    exact hm2

theorem best_candidates_error {s : List Char} {e : PyErr}
    (h : best_candidates s = .error e) : ∃ msg, e = .valueError msg := by
  unfold best_candidates at h
  split at h
  · split at h
    · simp only [Except.error.injEq] at h
      exact ⟨_, h.symm⟩
    · split at h
      · simp only [Except.error.injEq] at h
        exact ⟨_, h.symm⟩
      · simp at h
  · simp at h

theorem processLine_ok (m : AbbrevMap) (s : List Char) :
    ∃ m', processLine m s = .ok m' := by
  unfold processLine
  cases hb : best_candidates s with
  | error e =>
    obtain ⟨msg, he⟩ := best_candidates_error hb
    subst he
    exact ⟨m, rfl⟩
  | ok cs =>
    have hcs : ∀ c ∈ cs, c.value ≠ [] := by
      intro c hc
      have hmem : c ∈ candidatesOf s := by
        unfold candidatesOf
        rw [hb]
        exact hc
      exact conditions_ne_nil (candidatesOf_mem hmem).1
    exact processCandsE_ok cs s m hcs

theorem processLinesE_ok : ∀ (ls : List (List Char)) (m : AbbrevMap),
    ∃ m', processLinesE m ls = .ok m' := by
  intro ls
  induction ls with
  | nil => intro m; exact ⟨m, rfl⟩
  | cons l ls ih =>
    intro m
    obtain ⟨m1, hm1⟩ := processLine_ok m l
    obtain ⟨m2, hm2⟩ := ih m1
    refine ⟨m2, ?_⟩
    simp only [processLinesE]
    rw [hm1]
    exact hm2

/-! Section: Skipping a line with unbalanced parentheses -/

theorem best_candidates_unbalanced {s : List Char} (hp : '(' ∈ s)
    (h : s.count '(' ≠ s.count ')') :
    best_candidates s = .error (.valueError "Unbalanced parentheses") := by
  unfold best_candidates
  rw [if_pos hp, if_pos h]

theorem best_candidates_no_open {s : List Char} (hp : '(' ∉ s) :
    best_candidates s = .ok [] := by
  unfold best_candidates
  rw [if_neg hp]

theorem candidatesOf_unbalanced {s : List Char} (h : s.count '(' ≠ s.count ')') :
    candidatesOf s = [] := by
  by_cases hp : '(' ∈ s
  · unfold candidatesOf
    rw [best_candidates_unbalanced hp h]
  · unfold candidatesOf
    rw [best_candidates_no_open hp]

theorem processLine_unbalanced {s : List Char} (h : s.count '(' ≠ s.count ')')
    (m : AbbrevMap) : processLine m s = .ok m := by
  by_cases hp : '(' ∈ s
  · simp only [processLine, best_candidates_unbalanced hp h]
  · simp only [processLine, best_candidates_no_open hp, processCandsE]

theorem processLinesE_skip {s : List Char} (h : s.count '(' ≠ s.count ')') :
    ∀ (pre : List (List Char)) (m : AbbrevMap) (post : List (List Char)),
      processLinesE m (pre ++ s :: post) = processLinesE m (pre ++ post) := by
  intro pre
  induction pre with
  | nil =>
    intro m post
    simp only [List.nil_append, processLinesE, processLine_unbalanced h m]
  | cons l pre ih =>
    intro m post
    simp only [List.cons_append, processLinesE]
    cases processLine m l with
    | error e => rfl
    | ok m' => exact ih m' post

/-- C5: a line whose open- and close-parenthesis counts differ contributes no
    candidates and no kept pairs; the failure aborts only that line, and the
    surrounding document is processed as if the line were absent. -/
theorem c5_unbalanced_line_skipped (s : List Char) (m : AbbrevMap)
    (pre post : List (List Char)) (h : s.count '(' ≠ s.count ')') :
    candidatesOf s = [] ∧ processLine m s = .ok m ∧
      processLinesE m (pre ++ s :: post) = processLinesE m (pre ++ post) :=
  ⟨candidatesOf_unbalanced h, processLine_unbalanced h m, processLinesE_skip h pre m post⟩

/-- Witness for C5 at a concrete unbalanced line between two well-formed lines. -/
theorem c5_unbalanced_line_skipped_witness :
    ((ofStr "((a").count '(' ≠ (ofStr "((a").count ')') ∧
      (candidatesOf (ofStr "((a") = [] ∧
        processLine [] (ofStr "((a") = .ok [] ∧
        processLinesE [] ([ofStr "World Health Organization (WHO)"] ++
            ofStr "((a" :: [ofStr "Wide Harmless Octopus (WHO)"]) =
          processLinesE [] ([ofStr "World Health Organization (WHO)"] ++
            [ofStr "Wide Harmless Octopus (WHO)"])) :=
  ⟨by decide, c5_unbalanced_line_skipped (ofStr "((a") []
    [ofStr "World Health Organization (WHO)"] [ofStr "Wide Harmless Octopus (WHO)"] (by decide)⟩

/-! Section: The key-frequency rejection of the definition locator -/

theorem candidateFreq_pos_ne_nil {c : Candidate} (h : 0 < candidateFreq c) :
    c.value ≠ [] := by
  intro he
  unfold candidateFreq toLowerL at h
  rw [he] at h
  simp at h

/-- C6: when the candidate contains more occurrences of its key character than
    there are key-initial tokens before it, get_definition fails with the
    ValueError of the source, the candidate is dropped without touching the
    map, and in particular the lone line (WHO) yields an empty map. -/
theorem c6_key_frequency_reject (c : Candidate) (s : List Char) (m : AbbrevMap)
    (h : definitionFreq c s < candidateFreq c) :
    get_definition c s = .error (.valueError
        "There are less keys in the tokens in front of candidate than there are in the candidate") ∧
      processCandidate m s c = .ok m ∧
      extractE (ofStr "(WHO)") = .ok [] := by
  have hne : c.value ≠ [] := candidateFreq_pos_ne_nil (by omega)
  have hg : get_definition c s = .error (.valueError
      "There are less keys in the tokens in front of candidate than there are in the candidate") := by
    unfold get_definition
    cases hcv : c.value with
    | nil => exact absurd hcv hne
    | cons x xs => rw [if_neg (by omega)]
  refine ⟨hg, ?_, by decide⟩
  simp only [processCandidate, hg]

/-- Witness for C6 on the line (WHO), whose token window is ["(who"]. -/
theorem c6_key_frequency_reject_witness :
    (definitionFreq ⟨1, 4, ofStr "WHO"⟩ (ofStr "(WHO)") <
        candidateFreq ⟨1, 4, ofStr "WHO"⟩) ∧
      (get_definition ⟨1, 4, ofStr "WHO"⟩ (ofStr "(WHO)") = .error (.valueError
          "There are less keys in the tokens in front of candidate than there are in the candidate") ∧
        processCandidate [] (ofStr "(WHO)") ⟨1, 4, ofStr "WHO"⟩ = .ok [] ∧
        extractE (ofStr "(WHO)") = .ok []) :=
  ⟨by decide, c6_key_frequency_reject ⟨1, 4, ofStr "WHO"⟩ (ofStr "(WHO)") [] (by decide)⟩

/-! Section: The full-word rejection of the definition validator -/

/-- C7: an abbreviation equal to one of the whitespace-split tokens of the
    definition is rejected by select_definition with the full-word ValueError,
    and the orchestrator stores no pair for such a candidate. -/
theorem c7_full_word_reject (definition c : Candidate) (m : AbbrevMap) (s : List Char)
    (h : c.value ∈ pySplit definition.value) :
    select_definition definition c =
        .error (.valueError "Abbreviation is full word of definition") ∧
      (get_definition c s = .ok definition → processCandidate m s c = .ok m) := by
  have hlen : ¬ (definition.value.length < c.value.length) := by
    have := pySplit_mem_length h
    omega
  have hs : select_definition definition c =
      .error (.valueError "Abbreviation is full word of definition") := by
    unfold select_definition
    rw [if_neg hlen, if_pos h]
  exact ⟨hs, fun hg => by simp only [processCandidate, hg, hs]⟩

/-- Witness for C7 on the line "ABC (ABC)". -/
theorem c7_full_word_reject_witness :
    (ofStr "ABC" ∈ pySplit (ofStr "ABC")) ∧
      (select_definition ⟨0, 3, ofStr "ABC"⟩ ⟨5, 8, ofStr "ABC"⟩ =
          .error (.valueError "Abbreviation is full word of definition") ∧
        (get_definition ⟨5, 8, ofStr "ABC"⟩ (ofStr "ABC (ABC)") = .ok ⟨0, 3, ofStr "ABC"⟩ →
          processCandidate [] (ofStr "ABC (ABC)") ⟨5, 8, ofStr "ABC"⟩ = .ok [])) :=
  ⟨by decide, c7_full_word_reject ⟨0, 3, ofStr "ABC"⟩ ⟨5, 8, ofStr "ABC"⟩ []
    (ofStr "ABC (ABC)") (by decide)⟩

/-! Section: Termination of the alignment loop, and orchestrator totality -/

/-- C9: under the checked preconditions the backward alignment loop terminates
    within len(definition) + 2 iterations, stopping either on the
    word-boundary break (an ok result carrying the final lindex) or in a
    raised failure; the fuelled loop never runs out. -/
theorem c9_alignment_terminates (d a : List Char)
    (h1 : a.length ≤ d.length) (h2 : a ∉ pySplit d) :
    ∃ r, alignLoopF (d.length + 2) d a (-1) (-1) = some r ∧
      r.1 = alignRun d a ∧ ((∃ li, r.1 = .ok li) ∨ (∃ e, r.1 = .error e)) := by
  have hs := alignLoopF_isSome (d.length + 2) d a (-1) (-1) (by omega)
  obtain ⟨r, hr⟩ := Option.isSome_iff_exists.mp hs
  refine ⟨r, hr, ?_, ?_⟩
  · unfold alignRun
    rw [hr]
    rfl
  · cases h3 : r.1 with
    | ok li => exact Or.inl ⟨li, rfl⟩
    | error e => exact Or.inr ⟨e, rfl⟩

/-- Witness for C9 at the WHO definition and abbreviation. -/
theorem c9_alignment_terminates_witness :
    ((ofStr "WHO").length ≤ (ofStr "World Health Organization").length ∧
        ofStr "WHO" ∉ pySplit (ofStr "World Health Organization")) ∧
      (∃ r, alignLoopF ((ofStr "World Health Organization").length + 2)
          (ofStr "World Health Organization") (ofStr "WHO") (-1) (-1) = some r ∧
        r.1 = alignRun (ofStr "World Health Organization") (ofStr "WHO") ∧
        ((∃ li, r.1 = .ok li) ∨ (∃ e, r.1 = .error e))) :=
  ⟨⟨by decide, by decide⟩, c9_alignment_terminates (ofStr "World Health Organization")
    (ofStr "WHO") (by decide) (by decide)⟩

/-- C10: extraction from an in-memory document never surfaces an exception:
    every error raised by the three stages is caught inside the orchestrator,
    so the result is always an ok map, the one the public entry point returns. -/
theorem c10_extract_never_raises (doc : List Char) :
    extractE doc = .ok (extract_abbreviation_definition_pairs doc) := by
  have h : ∃ m, extractE doc = .ok m := by
    unfold extractE
    split
    · exact ⟨[], rfl⟩
    · exact processLinesE_ok _ []
  obtain ⟨m, hm⟩ := h
  unfold extract_abbreviation_definition_pairs
  rw [hm]

/-! Section: Shapes of successful stage results -/

theorem pySliceCore_len_suffix (l : List Char) (a : Int) :
    pySliceCore l a (l.length : Int) <:+ l := by
  unfold pySliceCore pyNormIdx
  rw [if_neg (by omega : ¬ ((l.length : Int) < 0))]
  have h1 : (l.length : Int).toNat = l.length := by omega
  rw [h1, min_self, List.take_length]
  exact List.drop_suffix _ _

theorem select_definition_ok_shape {defn abbr nd : Candidate}
    (h : select_definition defn abbr = .ok nd) :
    nd.start = defn.start ∧ nd.stop = defn.stop ∧ nd.value <:+ defn.value := by
  unfold select_definition at h
  split at h
  · simp at h
  · split at h
    · simp at h
    · split at h
      · simp at h
      · dsimp only at h
        split at h
        · simp at h
        · split at h
          · simp at h
          · simp only [Except.ok.injEq] at h
            subst h
            exact ⟨rfl, rfl, pySliceCore_len_suffix _ _⟩

theorem get_definition_ok_shape {c : Candidate} {s : List Char} {d : Candidate}
    (h : get_definition c s = .ok d) :
    ∃ si : Int, gdStartIndex c s = .ok si ∧
      d.start = (joinSpaceLen (pySliceCore (gdTokens c s) 0 si) : Int) +
        (lstripCount (pySliceCore s
          (joinSpaceLen (pySliceCore (gdTokens c s) 0 si) : Int) (c.start - 1)) : Int) ∧
      d.stop = (c.start - 1) - (rstripCount (pySliceCore s
          (joinSpaceLen (pySliceCore (gdTokens c s) 0 si) : Int) (c.start - 1)) : Int) ∧
      d.value = pySliceCore s d.start d.stop := by
  unfold get_definition at h
  split at h
  · simp at h
  · split at h
    · split at h
      · simp at h
      · next si hsi =>
        simp only [Except.ok.injEq] at h
        subst h
        exact ⟨si, hsi, rfl, rfl, rfl⟩
    · simp at h

/-- C1 counterexample: on "able w-wx (WX)" the validator narrows the
    definition value to "wx" but stores the pre-narrowing offsets 5 and 9,
    and re-slicing the line at [5, 9) gives "w-wx", not "wx". -/
theorem c1_offsets_counterexample :
    extractE (ofStr "able w-wx (WX)") = .ok [(ofStr "WX", ⟨5, 9, ofStr "wx"⟩)] ∧
      pySliceCore (ofStr "able w-wx (WX)") 5 9 = ofStr "w-wx" ∧
      pySliceCore (ofStr "able w-wx (WX)") 5 9 ≠ ofStr "wx" :=
  ⟨by decide, by decide, by decide⟩

/-- C1 amended: the re-slicing invariant holds for every candidate yielded by
    the candidate finder and for every definition returned by the definition
    locator; the validator carries the locator's start and stop over
    unchanged while narrowing the value to a suffix, so its output satisfies
    the invariant only when no narrowing occurred. -/
theorem c1_offsets_amended (s : List Char) (c defn abbr nd : Candidate)
    (h1 : c ∈ candidatesOf s) (h2 : get_definition c s = .ok defn)
    (h3 : select_definition defn abbr = .ok nd) :
    pySliceCore s c.start c.stop = c.value ∧
      pySliceCore s defn.start defn.stop = defn.value ∧
      nd.start = defn.start ∧ nd.stop = defn.stop ∧ nd.value <:+ defn.value := by
  obtain ⟨_, hv⟩ := candidatesOf_mem h1
  obtain ⟨si, _, _, _, hval⟩ := get_definition_ok_shape h2
  obtain ⟨ha, hb, hc⟩ := select_definition_ok_shape h3
  refine ⟨hv.symm, ?_, ha, hb, hc⟩
  exact hval.symm

/-- Witness for C1 amended at the WHO line. -/
theorem c1_offsets_amended_witness :
    (⟨27, 30, ofStr "WHO"⟩ ∈ candidatesOf (ofStr "World Health Organization (WHO)") ∧
      get_definition ⟨27, 30, ofStr "WHO"⟩ (ofStr "World Health Organization (WHO)") =
        .ok ⟨0, 25, ofStr "World Health Organization"⟩ ∧
      select_definition ⟨0, 25, ofStr "World Health Organization"⟩ ⟨27, 30, ofStr "WHO"⟩ =
        .ok ⟨0, 25, ofStr "World Health Organization"⟩) ∧
      (pySliceCore (ofStr "World Health Organization (WHO)") 27 30 = ofStr "WHO" ∧
        pySliceCore (ofStr "World Health Organization (WHO)") 0 25 =
          ofStr "World Health Organization" ∧
        (0 : Int) = 0 ∧ (25 : Int) = 25 ∧
        ofStr "World Health Organization" <:+ ofStr "World Health Organization") :=
  ⟨⟨by decide, by decide, by decide⟩,
    c1_offsets_amended (ofStr "World Health Organization (WHO)")
      ⟨27, 30, ofStr "WHO"⟩ ⟨0, 25, ofStr "World Health Organization"⟩
      ⟨27, 30, ofStr "WHO"⟩ ⟨0, 25, ofStr "World Health Organization"⟩
      (by decide) (by decide) (by decide)⟩

/-- C2: the full pipeline on "World Health Organization (WHO)": the finder
    yields exactly WHO, the locator returns the full phrase, the validator
    returns it unchanged, and the final map holds that single pair. -/
theorem c2_who_example :
    candidatesOf (ofStr "World Health Organization (WHO)") = [⟨27, 30, ofStr "WHO"⟩] ∧
      get_definition ⟨27, 30, ofStr "WHO"⟩ (ofStr "World Health Organization (WHO)") =
        .ok ⟨0, 25, ofStr "World Health Organization"⟩ ∧
      select_definition ⟨0, 25, ofStr "World Health Organization"⟩ ⟨27, 30, ofStr "WHO"⟩ =
        .ok ⟨0, 25, ofStr "World Health Organization"⟩ ∧
      extractE (ofStr "World Health Organization (WHO)") =
        .ok [(ofStr "WHO", ⟨0, 25, ofStr "World Health Organization"⟩)] :=
  ⟨by decide, by decide, by decide, by decide⟩

/-- C3 counterexample: on "a  b World Health Organization (WHO)" (two spaces
    after "a") the locator computes the start offset as the length of the
    single-space join of the skipped tokens, which lands inside the token "b",
    so the returned span is "b World Health Organization" at [3, 30), not the
    chosen token "world" at its true offset 5. -/
theorem c3_join_offset_counterexample :
    candidatesOf (ofStr "a  b World Health Organization (WHO)") =
        [⟨32, 35, ofStr "WHO"⟩] ∧
      get_definition ⟨32, 35, ofStr "WHO"⟩ (ofStr "a  b World Health Organization (WHO)") =
        .ok ⟨3, 30, ofStr "b World Health Organization"⟩ ∧
      get_definition ⟨32, 35, ofStr "WHO"⟩ (ofStr "a  b World Health Organization (WHO)") ≠
        .ok ⟨5, 30, ofStr "World Health Organization"⟩ :=
  ⟨by decide, by decide, by decide⟩

/-- C3 amended: a successful locator result is the whitespace-trimmed slice
    sentence[start : candidate.start - 1] where start is the length of the
    single-space join of the tokens before the chosen one (the true character
    offset of that token only when the preceding separators are single
    spaces), and the trimmed span still re-slices to its value. -/
theorem c3_join_offset_amended (c : Candidate) (s : List Char) (d : Candidate)
    (h : get_definition c s = .ok d) :
    ∃ si : Int, gdStartIndex c s = .ok si ∧
      d.start = (joinSpaceLen (pySliceCore (gdTokens c s) 0 si) : Int) +
        (lstripCount (pySliceCore s
          (joinSpaceLen (pySliceCore (gdTokens c s) 0 si) : Int) (c.start - 1)) : Int) ∧
      d.stop = (c.start - 1) - (rstripCount (pySliceCore s
          (joinSpaceLen (pySliceCore (gdTokens c s) 0 si) : Int) (c.start - 1)) : Int) ∧
      d.value = pySliceCore s d.start d.stop :=
  get_definition_ok_shape h

/-- Witness for C3 amended at the wide-whitespace line. -/
theorem c3_join_offset_amended_witness :
    (get_definition ⟨32, 35, ofStr "WHO"⟩ (ofStr "a  b World Health Organization (WHO)") =
        .ok ⟨3, 30, ofStr "b World Health Organization"⟩) ∧
      (∃ si : Int, gdStartIndex ⟨32, 35, ofStr "WHO"⟩
          (ofStr "a  b World Health Organization (WHO)") = .ok si ∧
        (⟨3, 30, ofStr "b World Health Organization"⟩ : Candidate).start =
          (joinSpaceLen (pySliceCore (gdTokens ⟨32, 35, ofStr "WHO"⟩
            (ofStr "a  b World Health Organization (WHO)")) 0 si) : Int) +
          (lstripCount (pySliceCore (ofStr "a  b World Health Organization (WHO)")
            (joinSpaceLen (pySliceCore (gdTokens ⟨32, 35, ofStr "WHO"⟩
              (ofStr "a  b World Health Organization (WHO)")) 0 si) : Int)
            ((⟨32, 35, ofStr "WHO"⟩ : Candidate).start - 1)) : Int) ∧
        (⟨3, 30, ofStr "b World Health Organization"⟩ : Candidate).stop =
          ((⟨32, 35, ofStr "WHO"⟩ : Candidate).start - 1) -
          (rstripCount (pySliceCore (ofStr "a  b World Health Organization (WHO)")
            (joinSpaceLen (pySliceCore (gdTokens ⟨32, 35, ofStr "WHO"⟩
              (ofStr "a  b World Health Organization (WHO)")) 0 si) : Int)
            ((⟨32, 35, ofStr "WHO"⟩ : Candidate).start - 1)) : Int) ∧
        (⟨3, 30, ofStr "b World Health Organization"⟩ : Candidate).value =
          pySliceCore (ofStr "a  b World Health Organization (WHO)")
            (⟨3, 30, ofStr "b World Health Organization"⟩ : Candidate).start
            (⟨3, 30, ofStr "b World Health Organization"⟩ : Candidate).stop) :=
  ⟨by decide, c3_join_offset_amended ⟨32, 35, ofStr "WHO"⟩
    (ofStr "a  b World Health Organization (WHO)")
    ⟨3, 30, ofStr "b World Health Organization"⟩ (by decide)⟩

/-! Section: The comparison of the alignment loop uses the pre-skip character -/

/-- C4 counterexample: on definition "u.s" and abbreviation "U.S" the second
    iteration compares the non-alphanumeric dot of the abbreviation against a
    definition character (they even match), and the line "u.s (U.S)" exercises
    this run through the full pipeline. -/
theorem c4_dot_compared_counterexample :
    ('.', '.') ∈ alignTraceRun (ofStr "u.s") (ofStr "U.S") ∧
      pyIsAlnum '.' = false ∧
      extractE (ofStr "u.s (U.S)") = .ok [(ofStr "U.S", ⟨0, 3, ofStr "u.s"⟩)] :=
  ⟨by decide, by decide, by decide⟩

/-- C4 amended: when the abbreviation character read at sindex is not
    alphanumeric, sindex is advanced before the branch tests, but the
    character compared in that same iteration is still the one read before
    the advance: the head of the comparison trace of that iteration is the
    non-alphanumeric character itself (paired with the definition character);
    only later iterations read the advanced index. -/
theorem c4_stale_comparison_amended (fuel : Nat) (d a : List Char) (si li : Int)
    (sc lc : Char) (p : Except PyErr Int × List (Char × Char))
    (h1 : pyIdx d li = some lc) (h2 : pyIdx a si = some sc)
    (h3 : pyIsAlnum (pyToLower sc) = false)
    (h4 : alignLoopF (fuel + 1) d a si li = some p) :
    p.2.head? = some (pyToLower sc, pyToLower lc) := by
  simp only [alignLoopF, h1, h2, h3, Bool.false_eq_true, not_false_eq_true,
    if_true] at h4
  repeat' split at h4
  all_goals first
    | (simp only [Option.some.injEq] at h4; subst h4; rfl)
    | (cases hi : alignLoopF fuel d a (si - 1) (li - 1) with
        | none => rw [hi] at h4; simp at h4
        | some q =>
          rw [hi] at h4
          simp only [Option.map_some', Option.some.injEq] at h4
          subst h4
          rfl)
    | (cases hi : alignLoopF fuel d a (si - 1 - 1) (li - 1) with
        | none => rw [hi] at h4; simp at h4
        | some q =>
          rw [hi] at h4
          simp only [Option.map_some', Option.some.injEq] at h4
          subst h4
          rfl)

/-- Witness for C4 amended at the dot iteration of the "u.s"/"U.S" run. -/
theorem c4_stale_comparison_amended_witness :
    (pyIdx (ofStr "u.s") (-2) = some '.' ∧
        pyIdx (ofStr "U.S") (-2) = some '.' ∧
        pyIsAlnum (pyToLower '.') = false ∧
        alignLoopF 5 (ofStr "u.s") (ofStr "U.S") (-2) (-2) =
          some (.ok (-3), [('.', '.'), ('u', 'u')])) ∧
      (((.ok (-3), [('.', '.'), ('u', 'u')]) :
          Except PyErr Int × List (Char × Char)).2.head? =
        some (pyToLower '.', pyToLower '.')) :=
  ⟨⟨by decide, by decide, by decide, by decide⟩,
    c4_stale_comparison_amended 4 (ofStr "u.s") (ofStr "U.S") (-2) (-2) '.' '.'
      (.ok (-3), [('.', '.'), ('u', 'u')]) (by decide) (by decide) (by decide) (by decide)⟩

/-! Section: Dictionary insertion is last-write-wins -/

theorem filter_map_replace (m : AbbrevMap) (k : List Char) (v : Candidate) :
    (m.map (fun p => if p.1 == k then (k, v) else p)).filter (fun p => p.1 == k) =
      (m.filter (fun p => p.1 == k)).map (fun _ => (k, v)) := by
  induction m with
  | nil => rfl
  | cons p m ih =>
    by_cases hp : p.1 == k
    · simp only [List.map_cons, if_pos hp, List.filter_cons, hp, beq_self_eq_true,
        ite_true, List.map_cons, ih]
    · simp only [List.map_cons, if_neg hp, List.filter_cons, hp, Bool.false_eq_true,
        ite_false, ih]

theorem filter_map_replace_other (m : AbbrevMap) (k a : List Char) (v : Candidate)
    (hak : a ≠ k) :
    (m.map (fun p => if p.1 == k then (k, v) else p)).filter (fun p => p.1 == a) =
      m.filter (fun p => p.1 == a) := by
  have hka : (k == a) = false := by
    simp only [beq_eq_false_iff_ne, ne_eq]
    exact fun h => hak h.symm
  induction m with
  | nil => rfl
  | cons p m ih =>
    by_cases hp : p.1 == k
    · have hp' : p.1 = k := by simpa using hp
      simp only [List.map_cons, if_pos hp, hp', beq_self_eq_true, ite_true,
        List.filter_cons, hka, Bool.false_eq_true, ite_false, ih]
    · simp only [List.map_cons, if_neg hp, List.filter_cons, ih]

theorem filter_nil_of_not_any (m : AbbrevMap) (k : List Char)
    (h : m.any (fun p => p.1 == k) = false) :
    m.filter (fun p => p.1 == k) = [] := by
  rw [List.filter_eq_nil_iff]
  intro p hp hb
  rw [List.any_eq_false] at h
  exact h p hp hb

theorem dictInsert_filter_self (m : AbbrevMap) (k : List Char) (v : Candidate)
    (hu : (m.filter (fun p => p.1 == k)).length ≤ 1) :
    (dictInsert m k v).filter (fun p => p.1 == k) = [(k, v)] := by
  unfold dictInsert
  by_cases ha : m.any (fun p => p.1 == k)
  · rw [if_pos ha, filter_map_replace]
    have hne : m.filter (fun p => p.1 == k) ≠ [] := by
      rw [List.any_eq_true] at ha
      obtain ⟨p, hp, hb⟩ := ha
      intro hnil
      rw [List.filter_eq_nil_iff] at hnil
      exact hnil p hp hb
    cases hf : m.filter (fun p => p.1 == k) with
    | nil => exact absurd hf hne
    | cons q t =>
      rw [hf] at hu
      cases t with
      | nil => rfl
      | cons r t' => simp at hu
  · rw [if_neg ha, List.filter_append,
      filter_nil_of_not_any m k (Bool.eq_false_iff.mpr ha)]
    simp

theorem dictInsert_filter_other (m : AbbrevMap) (k a : List Char) (v : Candidate)
    (hak : a ≠ k) :
    (dictInsert m k v).filter (fun p => p.1 == a) = m.filter (fun p => p.1 == a) := by
  have hka : (k == a) = false := by
    simp only [beq_eq_false_iff_ne, ne_eq]
    exact fun h => hak h.symm
  unfold dictInsert
  by_cases ha : m.any (fun p => p.1 == k)
  · rw [if_pos ha, filter_map_replace_other m k a v hak]
  · rw [if_neg ha, List.filter_append]
    simp only [List.filter_cons, hka, Bool.false_eq_true, ite_false, List.filter_nil,
      List.append_nil]

theorem dictInsert_uniq (m : AbbrevMap) (k : List Char) (v : Candidate)
    (hu : ∀ b, (m.filter (fun p => p.1 == b)).length ≤ 1) :
    ∀ b, ((dictInsert m k v).filter (fun p => p.1 == b)).length ≤ 1 := by
  intro b
  by_cases hb : b = k
  · subst hb
    rw [dictInsert_filter_self m b v (hu b)]
    simp
  · rw [dictInsert_filter_other m k b v hb]
    exact hu b

theorem foldl_dictInsert_filter : ∀ (ps : List (List Char × Candidate)) (m : AbbrevMap)
    (a : List Char), (∀ b, (m.filter (fun p => p.1 == b)).length ≤ 1) →
    (ps.foldl (fun acc p => dictInsert acc p.1 p.2) m).filter (fun p => p.1 == a) =
      (match lastDef ps a with
       | none => m.filter (fun p => p.1 == a)
       | some v => [(a, v)]) := by
  intro ps
  induction ps with
  | nil => intro m a _; rfl
  | cons p ps ih =>
    intro m a hu
    rw [List.foldl_cons, ih (dictInsert m p.1 p.2) a (dictInsert_uniq m p.1 p.2 hu)]
    cases hl : lastDef ps a with
    | some v => simp only [lastDef, hl]
    | none =>
      simp only [lastDef, hl]
      by_cases hp : p.1 == a
      · have hp' : p.1 = a := by simpa using hp
        simp only [if_pos hp]
        subst hp'
        exact dictInsert_filter_self m p.1 p.2 (hu p.1)
      · simp only [if_neg hp]
        refine dictInsert_filter_other m p.1 a p.2 ?_
        intro h
        subst h
        exact hp (by simp)

theorem lastDef_eq_filter : ∀ (ps : List (List Char × Candidate)) (a : List Char),
    lastDef ps a = ((ps.filter (fun p => p.1 == a)).getLast?).map (fun p => p.2) := by
  intro ps
  induction ps with
  | nil => intro a; rfl
  | cons p ps ih =>
    intro a
    simp only [lastDef, List.filter_cons]
    by_cases hp : p.1 == a
    · simp only [if_pos hp, ih a]
      cases ht : ps.filter (fun q => q.1 == a) with
      | nil => simp
      | cons q t =>
        rw [List.getLast?_cons_cons]
        cases hg : (q :: t).getLast? with
        | none => simp at hg
        | some w => simp [hg]
    · simp only [if_neg hp, ih a]
      cases hg : (ps.filter (fun q => q.1 == a)).getLast? <;> rfl

/-! Section: The final map is the fold of the kept pairs -/

theorem processCandidate_eq_candPair {m m' : AbbrevMap} {s : List Char} {c : Candidate}
    (h : processCandidate m s c = .ok m') :
    m' = (match candPair s c with
          | some p => dictInsert m p.1 p.2
          | none => m) := by
  unfold processCandidate at h
  unfold candPair
  cases hg : get_definition c s with
  | error e =>
    cases e with
    | valueError msg =>
      simp only [hg, Except.ok.injEq] at h
      simp only [hg]
      exact h.symm
    | indexError =>
      simp only [hg] at h
      exact absurd h (by simp)
  | ok defn =>
    cases hs : select_definition defn c with
    | error e' =>
      simp only [hg, hs, Except.ok.injEq] at h
      simp only [hg, hs]
      exact h.symm
    | ok d =>
      simp only [hg, hs, Except.ok.injEq] at h
      simp only [hg, hs]
      exact h.symm

theorem processCandsE_eq_fold : ∀ (cs : List Candidate) (s : List Char)
    (m m' : AbbrevMap), processCandsE s m cs = .ok m' →
    m' = (cs.filterMap (candPair s)).foldl (fun acc p => dictInsert acc p.1 p.2) m := by
  intro cs
  induction cs with
  | nil =>
    intro s m m' h
    simp only [processCandsE, Except.ok.injEq] at h
    simp [h.symm]
  | cons c cs ih =>
    intro s m m' h
    simp only [processCandsE] at h
    cases hp : processCandidate m s c with
    | error e => rw [hp] at h; simp at h
    | ok m1 =>
      rw [hp] at h
      have h1 := processCandidate_eq_candPair hp
      have h2 := ih s m1 m' h
      cases hcp : candPair s c with
      | some p =>
        rw [hcp] at h1
        rw [h1] at h2
        simp only [List.filterMap_cons, hcp, List.foldl_cons]
        exact h2
      | none =>
        rw [hcp] at h1
        rw [h1] at h2
        simp only [List.filterMap_cons, hcp]
        exact h2

theorem processLine_eq_fold {m m' : AbbrevMap} {s : List Char}
    (h : processLine m s = .ok m') :
    m' = (linePairs s).foldl (fun acc p => dictInsert acc p.1 p.2) m := by
  unfold processLine at h
  unfold linePairs candidatesOf
  cases hb : best_candidates s with
  | error e =>
    rw [hb] at h
    cases e with
    | valueError msg =>
      simp only [Except.ok.injEq] at h
      simp [h.symm]
    | indexError => simp at h
  | ok cs =>
    rw [hb] at h
    exact processCandsE_eq_fold cs s m m' h

theorem processLinesE_eq_fold : ∀ (ls : List (List Char)) (m m' : AbbrevMap),
    processLinesE m ls = .ok m' →
    m' = (keptPairsL ls).foldl (fun acc p => dictInsert acc p.1 p.2) m := by
  intro ls
  induction ls with
  | nil =>
    intro m m' h
    simp only [processLinesE, Except.ok.injEq] at h
    simp [h.symm, keptPairsL]
  | cons l ls ih =>
    intro m m' h
    simp only [processLinesE] at h
    cases hp : processLine m l with
    | error e => rw [hp] at h; simp at h
    | ok m1 =>
      rw [hp] at h
      have h1 := processLine_eq_fold hp
      have h2 := ih m1 m' h
      simp only [keptPairsL, List.foldl_append, ← h1]
      exact h2

/-- C8: the final map is last-write-wins per abbreviation text: when the kept
    pairs of a document carry the key a exactly twice, chronologically first
    with d1 and later with d2, the final map holds exactly one entry for a,
    whose value is the later d2. -/
theorem c8_last_write_wins (ls : List (List Char)) (a : List Char)
    (d1 d2 : Candidate) (m : AbbrevMap)
    (h1 : processLinesE [] ls = .ok m)
    (h2 : (keptPairsL ls).filter (fun p => p.1 == a) = [(a, d1), (a, d2)]) :
    m.filter (fun p => p.1 == a) = [(a, d2)] := by
  have hm := processLinesE_eq_fold ls [] m h1
  subst hm
  rw [foldl_dictInsert_filter (keptPairsL ls) [] a (by intro b; simp)]
  rw [lastDef_eq_filter, h2]
  rfl

/-- Witness for C8 on a two-line document defining WHO twice. -/
theorem c8_last_write_wins_witness :
    (processLinesE [] [ofStr "World Health Organization (WHO)",
        ofStr "Wide Harmless Octopus (WHO)"] =
      .ok [(ofStr "WHO", ⟨0, 21, ofStr "Wide Harmless Octopus"⟩)] ∧
      (keptPairsL [ofStr "World Health Organization (WHO)",
          ofStr "Wide Harmless Octopus (WHO)"]).filter (fun p => p.1 == ofStr "WHO") =
        [(ofStr "WHO", ⟨0, 25, ofStr "World Health Organization"⟩),
         (ofStr "WHO", ⟨0, 21, ofStr "Wide Harmless Octopus"⟩)]) ∧
      ([(ofStr "WHO", (⟨0, 21, ofStr "Wide Harmless Octopus"⟩ : Candidate))].filter
          (fun p => p.1 == ofStr "WHO") =
        [(ofStr "WHO", ⟨0, 21, ofStr "Wide Harmless Octopus"⟩)]) :=
  ⟨⟨by decide, by decide⟩,
    c8_last_write_wins [ofStr "World Health Organization (WHO)",
        ofStr "Wide Harmless Octopus (WHO)"] (ofStr "WHO")
      ⟨0, 25, ofStr "World Health Organization"⟩ ⟨0, 21, ofStr "Wide Harmless Octopus"⟩
      [(ofStr "WHO", ⟨0, 21, ofStr "Wide Harmless Octopus"⟩)] (by decide) (by decide)⟩
